import Mathlib

/-!
Verification development for the Agda module dependency analyzer
(`support/analyze_dependencies.py`).

The Python source is shallowly embedded: each operation of the analyzer is
translated into an executable Lean definition working over lists (Python sets
are modelled as insertion-ordered duplicate-free lists, Python dicts as
insertion-ordered association lists, and Python's stable `list.sort` as a
stable insertion sort, which produces the same output as any stable sort run
with the same comparator).  Character classes model the ASCII fragment of the
Python regex classes (the inputs at issue in the claims are ASCII).
-/

namespace DepAnalysis

/-! ## Character classes (ASCII fragment of the regex classes used by the source)

The source matches lines against the regular expression
`^\s*(?:open\s+)?import\s+([\w.]+)(?:\s+.*)?$`.  Lines are produced by
splitting on a newline, so a line never contains a newline and the
whitespace class is the remaining five ASCII whitespace characters. -/

def isWS (c : Char) : Bool :=
  c == ' ' || c == '\t' || c == '\r' || c == '\x0b' || c == '\x0c'

def isWordChar (c : Char) : Bool :=
  c.isAlphanum || c == '_'

def isWordDot (c : Char) : Bool :=
  isWordChar c || c == '.'

/-- Match an exact literal prefix, returning the remainder on success. -/
def stripLit : List Char → List Char → Option (List Char)
  | [], l => some l
  | _ :: _, [] => none
  | c :: cs, x :: xs => if x == c then stripLit cs xs else none

def openKw : List Char := ['o', 'p', 'e', 'n']

def importKw : List Char := ['i', 'm', 'p', 'o', 'r', 't']

def publicKw : List Char := ['p', 'u', 'b', 'l', 'i', 'c']

/-- The optional `(?:open\s+)?` group: if the text begins with the literal
`open` followed by at least one whitespace character, consume the keyword and
the whitespace run; otherwise leave the text unchanged (the regex then
requires `import` at the original position, which fails whenever the text
began with `open`). -/
def afterOpenKw (t : List Char) : List Char :=
  match stripLit openKw t with
  | some r =>
    match r with
    | c :: _ => if isWS c then r.dropWhile isWS else t
    | [] => t
  | none => t

/-- Model of `re.match(r'^\s*(?:open\s+)?import\s+([\w.]+)(?:\s+.*)?$', line)`:
returns the captured group on success.  Greedy-match backtracking is
equivalent to maximal munch here because every alternative continuation
begins with a character from a disjoint class. -/
def matchImportLine (line : List Char) : Option (List Char) :=
  let t := afterOpenKw (line.dropWhile isWS)
  match stripLit importKw t with
  | none => none
  | some r =>
    match r with
    | [] => none
    | c :: _ =>
      if isWS c then
        let t3 := r.dropWhile isWS
        let tok := t3.takeWhile isWordDot
        let rest := t3.dropWhile isWordDot
        if tok.isEmpty then none
        else
          match rest with
          | [] => some tok
          | c2 :: _ => if isWS c2 then some tok else none
      else none

/-- Model of `line.strip().startswith('--')`: `strip` removes whitespace on
both ends; the first two characters of the leading-stripped text decide the
prefix test (they are never whitespace, so the trailing strip cannot change
them). -/
def isCommentLine (line : List Char) : Bool :=
  (line.dropWhile isWS).take 2 == ['-', '-']

/-- Word-boundary test for `\b`: satisfied at an edge or next to a non-word
character. -/
def boundaryOk : Option Char → Bool
  | none => true
  | some c => !isWordChar c

/-- Does the literal `public` occur at the head of `l`, with word boundaries
on both sides (`prev` is the character immediately before `l`)? -/
def pubHere (prev : Option Char) (l : List Char) : Bool :=
  match stripLit publicKw l with
  | some r => boundaryOk prev && boundaryOk r.head?
  | none => false

/-- Model of `re.search(r'\bpublic\b', line)`. -/
def searchPublic : Option Char → List Char → Bool
  | _, [] => false
  | prev, c :: rest => pubHere prev (c :: rest) || searchPublic (some c) rest

/-- Model of `content.split('\n')`. -/
def splitLines : List Char → List (List Char)
  | [] => [[]]
  | c :: rest =>
    if c == '\n' then [] :: splitLines rest
    else
      match splitLines rest with
      | [] => [[c]]
      | l :: ls => (c :: l) :: ls

/-- Python `set.add`, on an insertion-ordered duplicate-free list. -/
def addToSet (l : List String) (x : String) : List String :=
  if x ∈ l then l else l ++ [x]

/-- One loop iteration of `_parse_imports` over a single line, updating the
pair (imports, public imports). -/
def parseLineStep (acc : List String × List String) (line : List Char) :
    List String × List String :=
  if isCommentLine line then acc
  else
    match matchImportLine line with
    | none => acc
    | some tok =>
      let s := String.mk tok
      (addToSet acc.1 s, if searchPublic none line then addToSet acc.2 s else acc.2)

/-- Model of `DependencyAnalyzer._parse_imports` applied to the analyzable
text of one source unit: the resulting (`imports`, `public_imports`) sets. -/
def parse_imports (content : List Char) : List String × List String :=
  (splitLines content).foldl parseLineStep ([], [])

/-! ## Data model -/

/-- Model of the `AgdaModule` class: the fields the analysis reads.  The two
Python sets are modelled as insertion-ordered duplicate-free lists. -/
structure AgdaModule where
  name : String
  imports : List String
  publicImports : List String
deriving DecidableEq, Repr

/-- A dependency graph is the `modules` dict of `DependencyAnalyzer`:
modules keyed by name, in discovery (insertion) order. -/
abbrev Graph := List AgdaModule

/-- Model of `self.modules[name]` lookup / first module with a given name. -/
def findModule (g : Graph) (n : String) : Option AgdaModule :=
  g.find? (fun m => m.name == n)

/-- Model of `name in self.modules`. -/
def isKnown (g : Graph) (n : String) : Bool :=
  (findModule g n).isSome

/-- `len([imp for imp in module.imports if imp in self.modules])`. -/
def internalImportCount (g : Graph) (m : AgdaModule) : Nat :=
  (m.imports.filter (fun i => isKnown g i)).length

/-! ## Reverse dependency index

`self.reverse_deps` is a `defaultdict(set)` built by
`for module in modules: for imported in module.imports:
reverse_deps[imported].add(module.name)`.  It is modelled as an
insertion-ordered association list from names to name sets.  Note that the
source filters nothing here: entries are created for every imported name,
known or not. -/

def rdAdd (rd : List (String × List String)) (key val : String) :
    List (String × List String) :=
  match rd with
  | [] => [(key, [val])]
  | (k, vs) :: rest =>
    if k == key then (k, if val ∈ vs then vs else vs ++ [val]) :: rest
    else (k, vs) :: rdAdd rest key val

def buildReverseDeps (g : Graph) : List (String × List String) :=
  g.foldl (fun rd m => m.imports.foldl (fun rd2 i => rdAdd rd2 i m.name) rd) []

/-- Model of `self.reverse_deps.get(name, set())`: first-match association
list lookup (keys are unique, as in the dict). -/
def revLookup : List (String × List String) → String → List String
  | [], _ => []
  | (k, vs) :: rest, n => if k == n then vs else revLookup rest n

/-! ## Stable sort

Python's `list.sort` is a stable sort.  Output of a stable sort is uniquely
determined by the comparator and the input order, so a stable insertion sort
is an exact model. -/

def insertS (le : α → α → Bool) (x : α) : List α → List α
  | [] => [x]
  | y :: ys => if le x y then x :: y :: ys else y :: insertS le x ys

def pySort (le : α → α → Bool) (l : List α) : List α :=
  l.foldr (insertS le) []

/-! ## Classifier rankings -/

/-- Model of `DependencyAnalyzer.find_foundational_modules`: pairs
`(name, internal import count)` in discovery order, stably sorted ascending
by count, first `limit` taken. -/
def find_foundational_modules (g : Graph) (limit : Nat) : List (String × Nat) :=
  (pySort (fun a b => a.2 ≤ b.2)
    (g.map (fun m => (m.name, internalImportCount g m)))).take limit

/-- Model of `DependencyAnalyzer.find_hub_modules`: pairs
`(name, dependent count)` in discovery order, stably sorted descending by
count, first `limit` taken. -/
def find_hub_modules (g : Graph) (limit : Nat) : List (String × Nat) :=
  (pySort (fun a b => b.2 ≤ a.2)
    (g.map (fun m => (m.name, (revLookup (buildReverseDeps g) m.name).length)))).take limit

/-! ## Depth computation (`calculate_dependency_chains`)

The memo dict `chain_lengths` is modelled as an insertion-ordered association
list (so its order is finalization order, as in the Python dict).  The
recursion of `dfs` is bounded in the source by the call stack; here it is
bounded by a fuel parameter, and the driver supplies fuel `|g| + 1`, which is
proved sufficient (`chainsFuel` is fuel-stable above this bound). -/

def lookupMemo : List (String × Nat) → String → Option Nat
  | [], _ => none
  | (k, d) :: rest, n => if k == n then some d else lookupMemo rest n

/-- The loop `for imported in module.imports: if imported in modules:
depth = dfs(imported, path); max_depth = max(max_depth, depth + 1)`,
abstracted over the recursive call `f`. -/
def dfsGo (f : String → List (String × Nat) → Nat × List (String × Nat))
    (known : String → Bool) :
    List String → List (String × Nat) → Nat → Nat × List (String × Nat)
  | [], memo, acc => (acc, memo)
  | i :: rest, memo, acc =>
    if known i then
      let p := f i memo
      dfsGo f known rest p.2 (max acc (p.1 + 1))
    else dfsGo f known rest memo acc

/-- Model of the inner `dfs(module_name, path)` of
`calculate_dependency_chains`.  Returns the computed value and the updated
memo; a finalized entry is appended at the end of the memo (dict insertion
order). -/
def dfs (g : Graph) : Nat → String → List String → List (String × Nat) →
    Nat × List (String × Nat)
  | 0, _, _, memo => (0, memo)
  | fuel + 1, name, path, memo =>
    match lookupMemo memo name with
    | some d => (d, memo)
    | none =>
      match findModule g name with
      | none => (0, memo)
      | some m =>
        if name ∈ path then (0, memo)
        else
          let p := dfsGo (fun i mm => dfs g fuel i (name :: path) mm)
            (fun i => isKnown g i) m.imports memo 0
          (p.1, p.2 ++ [(name, p.1)])

/-- The driver loop `for module_name in self.modules: if module_name not in
chain_lengths: dfs(module_name, set())`, at a given fuel. -/
def chainsFuel (g : Graph) (fuel : Nat) : List (String × Nat) :=
  g.foldl (fun memo m =>
    match lookupMemo memo m.name with
    | some _ => memo
    | none => (dfs g fuel m.name [] memo).2) []

/-- Model of `DependencyAnalyzer.calculate_dependency_chains`. -/
def calculate_dependency_chains (g : Graph) : List (String × Nat) :=
  chainsFuel g (g.length + 1)

/-! ## Depth tiers (`analyze_dependency_patterns`) -/

structure TierResult where
  shallow : List (String × Nat)
  medium : List (String × Nat)
  deep : List (String × Nat)
deriving Repr

/-- Model of the tier portion of `analyze_dependency_patterns`: one pass over
`chain_lengths.items()` appending to a bucket by depth is the same as
filtering; then each bucket is stably sorted by depth (descending for the
deep bucket). -/
def analyze_dependency_patterns (g : Graph) : TierResult :=
  let cl := calculate_dependency_chains g
  { shallow := pySort (fun a b => a.2 ≤ b.2) (cl.filter (fun p => p.2 ≤ 5))
    medium := pySort (fun a b => a.2 ≤ b.2)
      (cl.filter (fun p => !(p.2 ≤ 5) && p.2 ≤ 15))
    deep := pySort (fun a b => b.2 ≤ a.2) (cl.filter (fun p => !(p.2 ≤ 15))) }

/-! ## Reference depth function for the acyclic case -/

/-- Fuel-indexed reference depth: the maximum over resolvable imports of one
plus the import's depth.  On a ranked (acyclic) graph this stabilizes once
the fuel exceeds the rank. -/
def specD (g : Graph) : Nat → String → Nat
  | 0, _ => 0
  | fuel + 1, n =>
    match findModule g n with
    | none => 0
    | some m =>
      (m.imports.filter (fun i => isKnown g i)).foldl
        (fun acc i => max acc (specD g fuel i + 1)) 0

/-- A ranking witnessing acyclicity: every resolvable import strictly
decreases the rank. -/
def Ranked (g : Graph) (r : String → Nat) : Prop :=
  ∀ m ∈ g, ∀ i ∈ m.imports, isKnown g i = true → r i < r m.name

/-- The stabilized reference depth on a ranked graph. -/
def depthStar (g : Graph) (r : String → Nat) (n : String) : Nat :=
  specD g (r n + 1) n

/-- Memo correctness invariant: every memo entry holds the reference depth of
a known module. -/
def GoodMemo (g : Graph) (r : String → Nat) (memo : List (String × Nat)) : Prop :=
  ∀ n d, lookupMemo memo n = some d → isKnown g n = true ∧ d = depthStar g r n

/-! ## Spec-side predicate for claim C3

Definition following the spec's words (not the source): a "well-dotted"
identifier consists of identifier characters and single interior dots — no
leading dot, no trailing dot, no two consecutive dots. -/

def noConsecDots : List Char → Bool
  | c1 :: c2 :: rest => !(c1 == '.' && c2 == '.') && noConsecDots (c2 :: rest)
  | _ => true

def specWellDotted (s : List Char) : Bool :=
  !s.isEmpty && s.all isWordDot
    && !(s.head? == some '.') && !(s.getLast? == some '.')
    && noConsecDots s

/-! ## Concrete example graphs used by counterexamples and witnesses -/

/-- Two-module 2-cycle: A imports B, B imports A. -/
def gTwoCycle : Graph :=
  [⟨"A", ["B"], []⟩, ⟨"B", ["A"], []⟩]

/-- Linear chain A → B → C → D, D importing nothing. -/
def gChain : Graph :=
  [⟨"A", ["B"], []⟩, ⟨"B", ["C"], []⟩, ⟨"C", ["D"], []⟩, ⟨"D", [], []⟩]

/-- A root importing three modules of depths 0, 2 and 5. -/
def gMix : Graph :=
  [⟨"P", [], []⟩,
   ⟨"C0", [], []⟩, ⟨"C1", ["C0"], []⟩, ⟨"C2", ["C1"], []⟩,
   ⟨"E0", [], []⟩, ⟨"E1", ["E0"], []⟩, ⟨"E2", ["E1"], []⟩,
   ⟨"E3", ["E2"], []⟩, ⟨"E4", ["E3"], []⟩, ⟨"E5", ["E4"], []⟩,
   ⟨"M", ["P", "C2", "E5"], []⟩]

/-- A rank function witnessing that `gChain` is acyclic. -/
def rChain : String → Nat
  | "A" => 3
  | "B" => 2
  | "C" => 1
  | _ => 0

/-- A rank function witnessing that `gMix` is acyclic. -/
def rMix : String → Nat
  | "C1" => 1
  | "C2" => 2
  | "E1" => 1
  | "E2" => 2
  | "E3" => 3
  | "E4" => 4
  | "E5" => 5
  | "M" => 6
  | _ => 0

/-- One module importing a name that resolves to no known module. -/
def gDangling : Graph :=
  [⟨"M", ["X"], []⟩]

/-- Two importless modules discovered in non-alphabetical order. -/
def gTieBreak : Graph :=
  [⟨"B", [], []⟩, ⟨"A", [], []⟩]

/-- Two modules, the first importing the second. -/
def gEdge : Graph :=
  [⟨"A", ["B"], []⟩, ⟨"B", [], []⟩]

/-! # Theorems -/

/-! ## Basic facts about module lookup -/

theorem findModule_eq_some {g : Graph} {n : String} {m : AgdaModule}
    (h : findModule g n = some m) : m ∈ g ∧ m.name = n := by
  refine ⟨List.mem_of_find?_eq_some h, ?_⟩
  have := List.find?_some h
  simpa using this

theorem findModule_of_mem_nodup {g : Graph} {m : AgdaModule}
    (hnd : (g.map (fun x => x.name)).Nodup) (hm : m ∈ g) :
    findModule g m.name = some m := by
  induction g with
  | nil => cases hm
  | cons x xs ih =>
    rw [List.map_cons, List.nodup_cons] at hnd
    rcases List.mem_cons.mp hm with h | h
    · subst h
      show List.find? (fun y => y.name == m.name) (m :: xs) = some m
      exact List.find?_cons_of_pos _ (by simp)
    · have hx : ¬((fun y : AgdaModule => y.name == m.name) x) = true := by
        simp only [beq_iff_eq]
        intro he
        exact hnd.1 (he ▸ List.mem_map_of_mem (fun y => y.name) h)
      show List.find? (fun y => y.name == m.name) (x :: xs) = some m
      rw [@List.find?_cons_of_neg _ (fun y : AgdaModule => y.name == m.name) x xs hx]
      exact ih hnd.2 h

theorem isKnown_of_mem {g : Graph} {m : AgdaModule} (hm : m ∈ g) :
    isKnown g m.name = true := by
  rw [isKnown, findModule, List.find?_isSome]
  exact ⟨m, hm, by simp⟩

theorem exists_of_isKnown {g : Graph} {n : String} (h : isKnown g n = true) :
    ∃ m ∈ g, m.name = n := by
  rw [isKnown, Option.isSome_iff_exists] at h
  obtain ⟨m, hm⟩ := h
  obtain ⟨h1, h2⟩ := findModule_eq_some hm
  exact ⟨m, h1, h2⟩

/-! ## Basic facts about memo lookup -/

theorem lookupMemo_append {l1 l2 : List (String × Nat)} {n : String} :
    lookupMemo (l1 ++ l2) n = ((lookupMemo l1 n).or (lookupMemo l2 n)) := by
  induction l1 with
  | nil => simp [lookupMemo]
  | cons p rest ih =>
    obtain ⟨k, d⟩ := p
    by_cases hk : k = n
    · subst hk; simp [lookupMemo]
    · simp [lookupMemo, hk, ih]

theorem lookupMemo_append_some {l1 l2 : List (String × Nat)} {n : String} {d : Nat}
    (h : lookupMemo l1 n = some d) : lookupMemo (l1 ++ l2) n = some d := by
  rw [lookupMemo_append, h]; rfl

theorem lookupMemo_append_none {l1 l2 : List (String × Nat)} {n : String}
    (h : lookupMemo l1 n = none) : lookupMemo (l1 ++ l2) n = lookupMemo l2 n := by
  rw [lookupMemo_append, h]; rfl

theorem lookupMemo_singleton {n : String} {d : Nat} :
    lookupMemo [(n, d)] n = some d := by
  simp [lookupMemo]

theorem lookupMemo_singleton_ne {n k : String} {d : Nat} (h : k ≠ n) :
    lookupMemo [(n, d)] k = none := by
  have hn : ¬(n == k) = true := by simpa using Ne.symm h
  simp [lookupMemo, hn]

theorem lookupMemo_eq_none_iff {memo : List (String × Nat)} {n : String} :
    lookupMemo memo n = none ↔ n ∉ memo.map Prod.fst := by
  induction memo with
  | nil => simp [lookupMemo]
  | cons p rest ih =>
    obtain ⟨k, d⟩ := p
    by_cases hk : k = n
    · subst hk; simp [lookupMemo]
    · simp [lookupMemo, hk, ih, Ne.symm hk]

/-! ## Reverse dependency index -/

theorem revLookup_rdAdd_self {rd : List (String × List String)} {key val : String} :
    val ∈ revLookup (rdAdd rd key val) key := by
  induction rd with
  | nil => simp [rdAdd, revLookup]
  | cons p rest ih =>
    obtain ⟨k, vs⟩ := p
    by_cases hk : k = key
    · subst hk
      by_cases hv : val ∈ vs
      · simp [rdAdd, revLookup, hv]
      · simp [rdAdd, revLookup, hv]
    · simp only [rdAdd, beq_iff_eq, if_neg hk, revLookup]
      exact ih

theorem revLookup_rdAdd_mono {rd : List (String × List String)}
    {key val n x : String} (h : x ∈ revLookup rd n) :
    x ∈ revLookup (rdAdd rd key val) n := by
  induction rd with
  | nil => simp [revLookup] at h
  | cons p rest ih =>
    obtain ⟨k, vs⟩ := p
    by_cases hk : k = key
    · subst hk
      simp only [rdAdd, beq_self_eq_true, if_pos, revLookup] at h ⊢
      by_cases hn : k = n
      · rw [if_pos (by simpa using hn)] at h ⊢
        by_cases hv : val ∈ vs
        · rw [if_pos hv]; exact h
        · rw [if_neg hv]; exact List.mem_append_left _ h
      · rw [if_neg (by simpa using hn)] at h ⊢
        exact h
    · simp only [rdAdd, revLookup] at h ⊢
      rw [if_neg (by simpa using hk)]
      simp only [revLookup]
      by_cases hn : k = n
      · rw [if_pos (by simpa using hn)] at h ⊢
        exact h
      · rw [if_neg (by simpa using hn)] at h ⊢
        exact ih h

theorem revLookup_rdAdd_mono2 {imps : List String}
    {rd : List (String × List String)} {i mname x : String}
    (h : x ∈ revLookup rd i) :
    x ∈ revLookup (imps.foldl (fun rd2 j => rdAdd rd2 j mname) rd) i := by
  induction imps generalizing rd with
  | nil => exact h
  | cons a rest ih =>
    rw [List.foldl_cons]
    exact ih (revLookup_rdAdd_mono h)

theorem revLookup_imports_foldl_self {imps : List String}
    {rd : List (String × List String)} {i mname : String} (hi : i ∈ imps) :
    mname ∈ revLookup (imps.foldl (fun rd2 j => rdAdd rd2 j mname) rd) i := by
  induction imps generalizing rd with
  | nil => cases hi
  | cons a rest ih =>
    rw [List.foldl_cons]
    rcases List.mem_cons.mp hi with h | h
    · subst h
      exact revLookup_rdAdd_mono2 revLookup_rdAdd_self
    · exact ih h

theorem revLookup_outer_foldl_mono {g : Graph}
    {rd : List (String × List String)} {i x : String}
    (h : x ∈ revLookup rd i) :
    x ∈ revLookup
      (g.foldl (fun rd3 m => m.imports.foldl (fun rd2 j => rdAdd rd2 j m.name) rd3) rd)
      i := by
  induction g generalizing rd with
  | nil => exact h
  | cons y ys ih =>
    rw [List.foldl_cons]
    exact ih (revLookup_rdAdd_mono2 h)

theorem mem_revLookup_buildReverseDeps {g : Graph} {m : AgdaModule} {i : String}
    (hm : m ∈ g) (hi : i ∈ m.imports) :
    m.name ∈ revLookup (buildReverseDeps g) i := by
  rw [buildReverseDeps]
  generalize hrd : ([] : List (String × List String)) = rd
  clear hrd
  induction g generalizing rd with
  | nil => cases hm
  | cons x xs ih =>
    rw [List.foldl_cons]
    rcases List.mem_cons.mp hm with h | h
    · subst h
      exact revLookup_outer_foldl_mono (revLookup_imports_foldl_self hi)
    · exact ih h _

/-! ## Stable sort lemmas -/

theorem insertS_perm (le : α → α → Bool) (x : α) (l : List α) :
    List.Perm (insertS le x l) (x :: l) := by
  induction l with
  | nil => simp [insertS]
  | cons y ys ih =>
    rw [insertS]
    by_cases h : le x y = true
    · rw [if_pos h]
    · rw [if_neg h]
      exact (ih.cons y).trans (List.Perm.swap x y ys)

theorem pySort_perm (le : α → α → Bool) (l : List α) :
    List.Perm (pySort le l) l := by
  induction l with
  | nil => simp [pySort]
  | cons x xs ih =>
    show List.Perm (insertS le x (pySort le xs)) (x :: xs)
    exact (insertS_perm le x _).trans (ih.cons x)

theorem insertS_sorted {le : α → α → Bool}
    (htot : ∀ a b, le a b = true ∨ le b a = true)
    (htr : ∀ a b c, le a b = true → le b c = true → le a c = true)
    {l : List α} (x : α) (hl : l.Pairwise (fun a b => le a b = true)) :
    (insertS le x l).Pairwise (fun a b => le a b = true) := by
  induction l with
  | nil => simp [insertS]
  | cons y ys ih =>
    rw [List.pairwise_cons] at hl
    rw [insertS]
    by_cases h : le x y = true
    · rw [if_pos h]
      refine List.Pairwise.cons ?_ (List.Pairwise.cons hl.1 hl.2)
      intro z hz
      rcases List.mem_cons.mp hz with rfl | hz2
      · exact h
      · exact htr x y z h (hl.1 z hz2)
    · rw [if_neg h]
      refine List.Pairwise.cons ?_ (ih hl.2)
      intro z hz
      have hz3 := (insertS_perm le x ys).mem_iff.mp hz
      rcases List.mem_cons.mp hz3 with rfl | hz4
      · rcases htot z y with hc | hc
        · exact absurd hc h
        · exact hc
      · exact hl.1 z hz4

theorem pySort_sorted {le : α → α → Bool}
    (htot : ∀ a b, le a b = true ∨ le b a = true)
    (htr : ∀ a b c, le a b = true → le b c = true → le a c = true)
    (l : List α) :
    (pySort le l).Pairwise (fun a b => le a b = true) := by
  induction l with
  | nil => simp [pySort]
  | cons x xs ih =>
    show (insertS le x (pySort le xs)).Pairwise _
    exact insertS_sorted htot htr x ih

theorem sublist_insertS (le : α → α → Bool) (x : α) (l : List α) :
    l.Sublist (insertS le x l) := by
  induction l with
  | nil => simp [insertS]
  | cons y ys ih =>
    rw [insertS]
    by_cases h : le x y = true
    · rw [if_pos h]
      exact (List.Sublist.refl _).cons x
    · rw [if_neg h]
      exact ih.cons₂ y

theorem insertS_before {le : α → α → Bool} {x b : α}
    (hxb : le x b = true) {l : List α} (hb : b ∈ l) :
    [x, b].Sublist (insertS le x l) := by
  induction l with
  | nil => cases hb
  | cons y ys ih =>
    rw [insertS]
    by_cases h : le x y = true
    · rw [if_pos h]
      exact (List.singleton_sublist.mpr hb).cons₂ x
    · rw [if_neg h]
      rcases List.mem_cons.mp hb with rfl | hb2
      · exact absurd hxb h
      · exact (ih hb2).cons y

theorem pySort_stable {le : α → α → Bool} {l : List α} {a b : α}
    (hab : [a, b].Sublist l) (hle : le a b = true) :
    [a, b].Sublist (pySort le l) := by
  induction l with
  | nil => simp at hab
  | cons x xs ih =>
    show [a, b].Sublist (insertS le x (pySort le xs))
    cases hab with
    | cons _ h1t =>
      exact (ih h1t).trans (sublist_insertS le x _)
    | cons₂ _ h1t =>
      have hbmem : b ∈ pySort le xs :=
        (pySort_perm le xs).mem_iff.mpr (List.singleton_sublist.mp h1t)
      exact insertS_before hle hbmem

theorem pair_sublist_of_mem {l : List α} {a b : α}
    (ha : a ∈ l) (hb : b ∈ l) (hne : a ≠ b) :
    [a, b].Sublist l ∨ [b, a].Sublist l := by
  induction l with
  | nil => cases ha
  | cons x xs ih =>
    rcases List.mem_cons.mp ha with rfl | ha2
    · have hb2 : b ∈ xs := by
        rcases List.mem_cons.mp hb with h | h
        · exact absurd h.symm hne
        · exact h
      exact Or.inl ((List.singleton_sublist.mpr hb2).cons₂ a)
    · rcases List.mem_cons.mp hb with rfl | hb2
      · exact Or.inr ((List.singleton_sublist.mpr ha2).cons₂ b)
      · rcases ih ha2 hb2 with h | h
        · exact Or.inl (h.cons x)
        · exact Or.inr (h.cons x)

theorem pair_sublist_antisymm {l : List α} {a b : α} (hnd : l.Nodup)
    (h1 : [a, b].Sublist l) (h2 : [b, a].Sublist l) : a = b := by
  induction l with
  | nil => simp at h1
  | cons x xs ih =>
    rw [List.nodup_cons] at hnd
    cases h1 with
    | cons _ h1t =>
      cases h2 with
      | cons _ h2t => exact ih hnd.2 h1t h2t
      | cons₂ _ h2t =>
        exact absurd (List.Sublist.mem (by simp) h1t) hnd.1
    | cons₂ _ h1t =>
      cases h2 with
      | cons _ h2t =>
        exact absurd (List.Sublist.mem (by simp) h2t) hnd.1
      | cons₂ _ h2t => rfl

/-! ## Generic fold lemmas -/

theorem foldl_preserve {β : Type _} {γ : Type _} (st : β → γ → β) (P : β → Prop)
    (h : ∀ b c, P b → P (st b c)) :
    ∀ (l : List γ) (b : β), P b → P (l.foldl st b) := by
  intro l
  induction l with
  | nil => intro b hb; exact hb
  | cons c cs ih =>
    intro b hb
    rw [List.foldl_cons]
    exact ih _ (h b c hb)

theorem foldl_congr_fun {β : Type _} {γ : Type _} {st1 st2 : β → γ → β}
    (h : ∀ b c, st1 b c = st2 b c) :
    ∀ (l : List γ) (b : β), l.foldl st1 b = l.foldl st2 b := by
  intro l
  induction l with
  | nil => intro b; rfl
  | cons c cs ih =>
    intro b
    rw [List.foldl_cons, List.foldl_cons, h b c]
    exact ih _

/-! ## Unfolding equations for `dfs` -/

theorem dfs_zero {g : Graph} {name : String} {path : List String}
    {memo : List (String × Nat)} : dfs g 0 name path memo = (0, memo) := rfl

theorem dfs_succ_memo {g : Graph} {fuel : Nat} {name : String}
    {path : List String} {memo : List (String × Nat)} {d : Nat}
    (hm : lookupMemo memo name = some d) :
    dfs g (fuel + 1) name path memo = (d, memo) := by
  rw [dfs, hm]

theorem dfs_succ_unknown {g : Graph} {fuel : Nat} {name : String}
    {path : List String} {memo : List (String × Nat)}
    (hm : lookupMemo memo name = none) (hf : findModule g name = none) :
    dfs g (fuel + 1) name path memo = (0, memo) := by
  rw [dfs, hm, hf]

theorem dfs_succ_cycle {g : Graph} {fuel : Nat} {name : String}
    {path : List String} {memo : List (String × Nat)} {m : AgdaModule}
    (hm : lookupMemo memo name = none) (hf : findModule g name = some m)
    (hp : name ∈ path) :
    dfs g (fuel + 1) name path memo = (0, memo) := by
  rw [dfs, hm, hf]
  show (if name ∈ path then ((0 : Nat), memo)
    else
      let p := dfsGo (fun i mm => dfs g fuel i (name :: path) mm)
        (fun i => isKnown g i) m.imports memo 0
      (p.1, p.2 ++ [(name, p.1)])) = ((0 : Nat), memo)
  rw [if_pos hp]

theorem dfs_succ_compute {g : Graph} {fuel : Nat} {name : String}
    {path : List String} {memo : List (String × Nat)} {m : AgdaModule}
    (hm : lookupMemo memo name = none) (hf : findModule g name = some m)
    (hp : name ∉ path) :
    dfs g (fuel + 1) name path memo =
      ((dfsGo (fun i mm => dfs g fuel i (name :: path) mm) (fun i => isKnown g i)
          m.imports memo 0).1,
        (dfsGo (fun i mm => dfs g fuel i (name :: path) mm) (fun i => isKnown g i)
          m.imports memo 0).2 ++
          [(name, (dfsGo (fun i mm => dfs g fuel i (name :: path) mm)
            (fun i => isKnown g i) m.imports memo 0).1)]) := by
  rw [dfs, hm, hf]
  show (if name ∈ path then ((0 : Nat), memo)
    else
      let p := dfsGo (fun i mm => dfs g fuel i (name :: path) mm)
        (fun i => isKnown g i) m.imports memo 0
      (p.1, p.2 ++ [(name, p.1)])) = _
  rw [if_neg hp]

/-! ## DFS memo preservation lemmas -/

theorem dfsGo_preserve {f : String → List (String × Nat) → Nat × List (String × Nat)}
    (known : String → Bool) (P : List (String × Nat) → Prop)
    (hf : ∀ i mm, P mm → P (f i mm).2) :
    ∀ (l : List String) (memo : List (String × Nat)) (acc : Nat),
      P memo → P (dfsGo f known l memo acc).2 := by
  intro l
  induction l with
  | nil => intro memo acc h; exact h
  | cons i rest ih =>
    intro memo acc h
    rw [dfsGo]
    by_cases hk : known i = true
    · rw [if_pos hk]
      exact ih _ _ (hf i memo h)
    · rw [if_neg hk]
      exact ih _ _ h

theorem dfs_lookup_mono (g : Graph) :
    ∀ (fuel : Nat) (name : String) (path : List String)
      (memo : List (String × Nat)) {n : String} {d : Nat},
      lookupMemo memo n = some d →
      lookupMemo (dfs g fuel name path memo).2 n = some d := by
  intro fuel
  induction fuel with
  | zero => intro name path memo n d h; exact h
  | succ fuel ih =>
    intro name path memo n d h
    cases hm : lookupMemo memo name with
    | some d2 => rw [dfs_succ_memo hm]; exact h
    | none =>
      cases hf : findModule g name with
      | none => rw [dfs_succ_unknown hm hf]; exact h
      | some m =>
        by_cases hp : name ∈ path
        · rw [dfs_succ_cycle hm hf hp]; exact h
        · rw [dfs_succ_compute hm hf hp]
          exact lookupMemo_append_some
            (dfsGo_preserve (fun i => isKnown g i)
              (fun mm => lookupMemo mm n = some d)
              (fun i mm h2 => ih i (name :: path) mm h2) m.imports memo 0 h)

theorem dfs_path_lookup_none (g : Graph) :
    ∀ (fuel : Nat) (name : String) (path : List String)
      (memo : List (String × Nat)) {n : String},
      n ∈ path → lookupMemo memo n = none →
      lookupMemo (dfs g fuel name path memo).2 n = none := by
  intro fuel
  induction fuel with
  | zero => intro name path memo n hn h; exact h
  | succ fuel ih =>
    intro name path memo n hn h
    cases hm : lookupMemo memo name with
    | some d2 => rw [dfs_succ_memo hm]; exact h
    | none =>
      cases hf : findModule g name with
      | none => rw [dfs_succ_unknown hm hf]; exact h
      | some m =>
        by_cases hp : name ∈ path
        · rw [dfs_succ_cycle hm hf hp]; exact h
        · rw [dfs_succ_compute hm hf hp]
          have hne : n ≠ name := fun he => hp (he ▸ hn)
          have hgo := dfsGo_preserve (fun i => isKnown g i)
            (fun mm => lookupMemo mm n = none)
            (fun i mm h2 => ih i (name :: path) mm (List.mem_cons_of_mem _ hn) h2)
            m.imports memo 0 h
          rw [lookupMemo_append_none hgo]
          exact lookupMemo_singleton_ne hne

theorem dfs_keys_known (g : Graph) :
    ∀ (fuel : Nat) (name : String) (path : List String)
      (memo : List (String × Nat)),
      (∀ p ∈ memo, isKnown g p.1 = true) →
      ∀ p ∈ (dfs g fuel name path memo).2, isKnown g p.1 = true := by
  intro fuel
  induction fuel with
  | zero => intro name path memo h; exact h
  | succ fuel ih =>
    intro name path memo h
    cases hm : lookupMemo memo name with
    | some d2 => rw [dfs_succ_memo hm]; exact h
    | none =>
      cases hf : findModule g name with
      | none => rw [dfs_succ_unknown hm hf]; exact h
      | some m =>
        by_cases hp : name ∈ path
        · rw [dfs_succ_cycle hm hf hp]; exact h
        · rw [dfs_succ_compute hm hf hp]
          have hgo := dfsGo_preserve (fun i => isKnown g i)
            (fun mm => ∀ p ∈ mm, isKnown g p.1 = true)
            (fun i mm h2 => ih i (name :: path) mm h2) m.imports memo 0 h
          intro p hpm
          rcases List.mem_append.mp hpm with h2 | h2
          · exact hgo p h2
          · rw [List.mem_singleton.mp h2]
            show isKnown g name = true
            rw [isKnown, hf]
            rfl

theorem dfs_keys_nodup (g : Graph) :
    ∀ (fuel : Nat) (name : String) (path : List String)
      (memo : List (String × Nat)),
      (memo.map Prod.fst).Nodup →
      ((dfs g fuel name path memo).2.map Prod.fst).Nodup := by
  intro fuel
  induction fuel with
  | zero => intro name path memo h; exact h
  | succ fuel ih =>
    intro name path memo h
    cases hm : lookupMemo memo name with
    | some d2 => rw [dfs_succ_memo hm]; exact h
    | none =>
      cases hf : findModule g name with
      | none => rw [dfs_succ_unknown hm hf]; exact h
      | some m =>
        by_cases hp : name ∈ path
        · rw [dfs_succ_cycle hm hf hp]; exact h
        · rw [dfs_succ_compute hm hf hp]
          have hgo := dfsGo_preserve (fun i => isKnown g i)
            (fun mm => (mm.map Prod.fst).Nodup ∧ lookupMemo mm name = none)
            (fun i mm h2 => ⟨ih i (name :: path) mm h2.1,
              dfs_path_lookup_none g fuel i (name :: path) mm
                (List.mem_cons_self name path) h2.2⟩)
            m.imports memo 0 ⟨h, hm⟩
          rw [List.map_append, List.nodup_append]
          refine ⟨hgo.1, List.nodup_singleton _, ?_⟩
          intro n hn hn2
          have hne : n = name := by simpa using hn2
          subst hne
          exact absurd hn (lookupMemo_eq_none_iff.mp hgo.2)

theorem dfs_finalizes (g : Graph) {name : String} (hk : isKnown g name = true) :
    ∀ (fuel : Nat) (memo : List (String × Nat)),
      (lookupMemo (dfs g (fuel + 1) name [] memo).2 name).isSome = true := by
  intro fuel memo
  cases hm : lookupMemo memo name with
  | some d => rw [dfs_succ_memo hm]; simp [hm]
  | none =>
    cases hf : findModule g name with
    | none =>
      rw [isKnown, hf] at hk
      simp at hk
    | some m =>
      rw [dfs_succ_compute hm hf (List.not_mem_nil name)]
      rw [lookupMemo_append]
      cases lookupMemo
        (dfsGo (fun i mm => dfs g fuel i [name] mm) (fun i => isKnown g i)
          m.imports memo 0).2 name with
      | some d2 => rfl
      | none => rw [Option.none_or, lookupMemo_singleton]; rfl

/-! ## Fuel stability of the DFS -/

theorem dfsGo_congr {f f2 : String → List (String × Nat) → Nat × List (String × Nat)}
    {known : String → Bool} (h : ∀ i mm, f i mm = f2 i mm) :
    ∀ (l : List String) (memo : List (String × Nat)) (acc : Nat),
      dfsGo f known l memo acc = dfsGo f2 known l memo acc := by
  intro l
  induction l with
  | nil => intro memo acc; rfl
  | cons i rest ih =>
    intro memo acc
    rw [dfsGo, dfsGo]
    by_cases hk : known i = true
    · rw [if_pos hk, if_pos hk, h i memo]
      exact ih _ _
    · rw [if_neg hk, if_neg hk]
      exact ih _ _

theorem path_length_le (g : Graph) {path : List String} (hnd : path.Nodup)
    (hk : ∀ p ∈ path, isKnown g p = true) : path.length ≤ g.length := by
  calc path.length = path.toFinset.card := (List.toFinset_card_of_nodup hnd).symm
    _ ≤ (g.map (fun m => m.name)).toFinset.card := by
        refine Finset.card_le_card ?_
        intro n hn
        rw [List.mem_toFinset] at hn ⊢
        obtain ⟨m, hm, he⟩ := exists_of_isKnown (hk n hn)
        exact he ▸ List.mem_map_of_mem _ hm
    _ ≤ (g.map (fun m => m.name)).length := List.toFinset_card_le _
    _ = g.length := List.length_map _ _

theorem dfs_fuel_stable (g : Graph) :
    ∀ (f1 f2 : Nat) (name : String) (path : List String)
      (memo : List (String × Nat)),
      path.Nodup → (∀ p ∈ path, isKnown g p = true) →
      g.length + 1 ≤ f1 + path.length → g.length + 1 ≤ f2 + path.length →
      dfs g f1 name path memo = dfs g f2 name path memo := by
  intro f1
  induction f1 with
  | zero =>
    intro f2 name path memo hnd hkp h1 h2
    exact absurd h1 (by have := path_length_le g hnd hkp; omega)
  | succ a ih =>
    intro f2 name path memo hnd hkp h1 h2
    cases f2 with
    | zero => exact absurd h2 (by have := path_length_le g hnd hkp; omega)
    | succ b =>
      cases hm : lookupMemo memo name with
      | some d => rw [dfs_succ_memo hm, dfs_succ_memo hm]
      | none =>
        cases hf : findModule g name with
        | none => rw [dfs_succ_unknown hm hf, dfs_succ_unknown hm hf]
        | some m =>
          by_cases hp : name ∈ path
          · rw [dfs_succ_cycle hm hf hp, dfs_succ_cycle hm hf hp]
          · rw [dfs_succ_compute hm hf hp, dfs_succ_compute hm hf hp]
            have hknown : isKnown g name = true := by rw [isKnown, hf]; rfl
            have hlen : (name :: path).length = path.length + 1 := rfl
            have hcong : ∀ i mm, dfs g a i (name :: path) mm = dfs g b i (name :: path) mm := by
              intro i mm
              refine ih b i (name :: path) mm (List.nodup_cons.mpr ⟨hp, hnd⟩) ?_ ?_ ?_
              · intro p hpm
                rcases List.mem_cons.mp hpm with rfl | hh
                · exact hknown
                · exact hkp p hh
              · omega
              · omega
            rw [dfsGo_congr hcong m.imports memo 0]

theorem chainsFuel_stable (g : Graph) (f1 f2 : Nat)
    (h1 : g.length + 1 ≤ f1) (h2 : g.length + 1 ≤ f2) :
    chainsFuel g f1 = chainsFuel g f2 := by
  rw [chainsFuel, chainsFuel]
  refine foldl_congr_fun ?_ g []
  intro memo m
  cases hm : lookupMemo memo m.name with
  | some d => rfl
  | none =>
    have : dfs g f1 m.name [] memo = dfs g f2 m.name [] memo := by
      refine dfs_fuel_stable g f1 f2 m.name [] memo List.nodup_nil ?_ ?_ ?_
      · intro p hp; cases hp
      · simpa using h1
      · simpa using h2
    rw [this]

/-! ## Every known module is finalized -/

theorem chainsFuel_isSome (g : Graph) (fuel : Nat) :
    ∀ m ∈ g, (lookupMemo (chainsFuel g (fuel + 1)) m.name).isSome = true := by
  intro m hm
  rw [chainsFuel]
  have hstep : ∀ (memo : List (String × Nat)) (x : AgdaModule),
      (lookupMemo memo m.name).isSome = true →
      (lookupMemo
        (match lookupMemo memo x.name with
          | some _ => memo
          | none => (dfs g (fuel + 1) x.name [] memo).2) m.name).isSome = true := by
    intro memo x h
    cases hx : lookupMemo memo x.name with
    | some d => exact h
    | none =>
      obtain ⟨d, hd⟩ := Option.isSome_iff_exists.mp h
      rw [dfs_lookup_mono g (fuel + 1) x.name [] memo hd]
      rfl
  have hin : ∀ (l : List AgdaModule) (memo : List (String × Nat)),
      m ∈ l →
      (lookupMemo
        (l.foldl (fun memo2 x =>
          match lookupMemo memo2 x.name with
          | some _ => memo2
          | none => (dfs g (fuel + 1) x.name [] memo2).2) memo) m.name).isSome = true := by
    intro l
    induction l with
    | nil => intro memo hml; cases hml
    | cons x xs ih =>
      intro memo hml
      rw [List.foldl_cons]
      rcases List.mem_cons.mp hml with rfl | hml2
      · refine foldl_preserve _ (fun memo2 => (lookupMemo memo2 m.name).isSome = true)
          hstep xs _ ?_
        cases hx : lookupMemo memo m.name with
        | some d =>
          show (lookupMemo memo m.name).isSome = true
          rw [hx]
          rfl
        | none =>
          show (lookupMemo (dfs g (fuel + 1) m.name [] memo).2 m.name).isSome = true
          exact dfs_finalizes g (isKnown_of_mem hm) fuel memo
      · exact ih _ hml2
  exact hin g [] hm

/-! ## Fold helpers -/

theorem foldl_filter {α : Type _} (q : α → Bool) (step : Nat → α → Nat) :
    ∀ (l : List α) (a : Nat),
      (l.filter q).foldl step a =
        l.foldl (fun acc i => if q i = true then step acc i else acc) a := by
  intro l
  induction l with
  | nil => intro a; rfl
  | cons x xs ih =>
    intro a
    rw [List.filter_cons]
    by_cases hq : q x = true
    · rw [if_pos hq, List.foldl_cons, List.foldl_cons, if_pos hq]
      exact ih _
    · rw [if_neg hq, List.foldl_cons, if_neg hq]
      exact ih _

theorem foldl_congr_mem {α : Type _} {step1 step2 : Nat → α → Nat} :
    ∀ (l : List α), (∀ a : Nat, ∀ x ∈ l, step1 a x = step2 a x) →
      ∀ (a : Nat), l.foldl step1 a = l.foldl step2 a := by
  intro l
  induction l with
  | nil => intro _ a; rfl
  | cons x xs ih =>
    intro h a
    rw [List.foldl_cons, List.foldl_cons, h a x (List.mem_cons_self x xs)]
    exact ih (fun a2 y hy => h a2 y (List.mem_cons_of_mem x hy)) _

theorem foldl_max_shift {α : Type _} (f : α → Nat) :
    ∀ (l : List α) (a : Nat),
      l.foldl (fun acc x => max acc (f x + 1)) (a + 1) =
        l.foldl (fun acc x => max acc (f x)) a + 1 := by
  intro l
  induction l with
  | nil => intro a; rfl
  | cons x xs ih =>
    intro a
    rw [List.foldl_cons, List.foldl_cons]
    have h : max (a + 1) (f x + 1) = max a (f x) + 1 := by omega
    rw [h]
    exact ih _

theorem foldl_max_plus1 {α : Type _} (f : α → Nat) (l : List α) (hl : l ≠ []) :
    l.foldl (fun acc x => max acc (f x + 1)) 0 =
      l.foldl (fun acc x => max acc (f x)) 0 + 1 := by
  cases l with
  | nil => exact absurd rfl hl
  | cons x xs =>
    rw [List.foldl_cons, List.foldl_cons]
    have h1 : max 0 (f x + 1) = f x + 1 := by omega
    have h2 : max 0 (f x) = f x := by omega
    rw [h1, h2]
    exact foldl_max_shift f xs (f x)

/-! ## Reference depth: unfolding and stabilization on ranked graphs -/

theorem specD_succ {g : Graph} {fuel : Nat} {n : String} {m : AgdaModule}
    (hf : findModule g n = some m) :
    specD g (fuel + 1) n =
      (m.imports.filter (fun i => isKnown g i)).foldl
        (fun acc i => max acc (specD g fuel i + 1)) 0 := by
  rw [specD, hf]

theorem specD_succ_unknown {g : Graph} {fuel : Nat} {n : String}
    (hf : findModule g n = none) : specD g (fuel + 1) n = 0 := by
  rw [specD, hf]

theorem specD_stable_aux {g : Graph} {r : String → Nat} (hrk : Ranked g r) :
    ∀ (k : Nat) (n : String), r n < k →
      ∀ (fuel : Nat), r n + 1 ≤ fuel → specD g fuel n = specD g (r n + 1) n := by
  intro k
  induction k with
  | zero => intro n hn; exact absurd hn (Nat.not_lt_zero _)
  | succ k ih =>
    intro n hn fuel hfuel
    cases fuel with
    | zero => omega
    | succ f =>
      cases hf : findModule g n with
      | none => rw [specD_succ_unknown hf, specD_succ_unknown hf]
      | some m =>
        rw [specD_succ hf, specD_succ hf]
        refine foldl_congr_mem _ ?_ 0
        intro a i hi
        have hik : isKnown g i = true := by
          have := List.mem_filter.mp hi
          simpa using this.2
        have him : i ∈ m.imports := (List.mem_filter.mp hi).1
        have hmg : m ∈ g := (findModule_eq_some hf).1
        have hmn : m.name = n := (findModule_eq_some hf).2
        have hri : r i < r n := hmn ▸ hrk m hmg i him hik
        have h1 : specD g f i = specD g (r i + 1) i := ih i (by omega) f (by omega)
        have h2 : specD g (r n) i = specD g (r i + 1) i := ih i (by omega) (r n) (by omega)
        rw [h1, h2]

theorem specD_stable {g : Graph} {r : String → Nat} (hrk : Ranked g r)
    (n : String) (fuel : Nat) (h : r n + 1 ≤ fuel) :
    specD g fuel n = depthStar g r n :=
  specD_stable_aux hrk (r n + 1) n (by omega) fuel h

/-! ## Unfolding equations for `dfsGo` -/

theorem dfsGo_cons_known {f : String → List (String × Nat) → Nat × List (String × Nat)}
    (known : String → Bool) {i : String} {rest : List String}
    {memo : List (String × Nat)} {acc : Nat} (hk : known i = true) :
    dfsGo f known (i :: rest) memo acc =
      dfsGo f known rest (f i memo).2 (max acc ((f i memo).1 + 1)) := by
  rw [dfsGo, if_pos hk]

theorem dfsGo_cons_unknown {f : String → List (String × Nat) → Nat × List (String × Nat)}
    (known : String → Bool) {i : String} {rest : List String}
    {memo : List (String × Nat)} {acc : Nat} (hk : ¬ known i = true) :
    dfsGo f known (i :: rest) memo acc = dfsGo f known rest memo acc := by
  rw [dfsGo, if_neg hk]

/-! ## The inner loop computes the reference depth (ranked graphs) -/

theorem dfsGo_rank {g : Graph} {r : String → Nat} {rb : Nat}
    {f : String → List (String × Nat) → Nat × List (String × Nat)} :
    ∀ (l : List String),
      (∀ i ∈ l, isKnown g i = true → ∀ mm, GoodMemo g r mm →
        GoodMemo g r (f i mm).2 ∧
        (∀ n d, lookupMemo mm n = some d → lookupMemo (f i mm).2 n = some d) ∧
        (∀ n, lookupMemo mm n = none → lookupMemo (f i mm).2 n ≠ none → r n < rb) ∧
        (f i mm).1 = depthStar g r i) →
      ∀ (memo : List (String × Nat)) (acc : Nat), GoodMemo g r memo →
        GoodMemo g r (dfsGo f (fun i => isKnown g i) l memo acc).2 ∧
        (∀ n d, lookupMemo memo n = some d →
          lookupMemo (dfsGo f (fun i => isKnown g i) l memo acc).2 n = some d) ∧
        (∀ n, lookupMemo memo n = none →
          lookupMemo (dfsGo f (fun i => isKnown g i) l memo acc).2 n ≠ none →
          r n < rb) ∧
        (dfsGo f (fun i => isKnown g i) l memo acc).1 =
          l.foldl (fun a i => if isKnown g i = true then max a (depthStar g r i + 1) else a)
            acc := by
  intro l
  induction l with
  | nil =>
    intro _ memo acc hG
    exact ⟨hG, fun n d h => h, fun n h1 h2 => (h2 h1).elim, rfl⟩
  | cons i rest ih =>
    intro hf memo acc hG
    by_cases hk : isKnown g i = true
    · rw [dfsGo_cons_known (fun j => isKnown g j) hk]
      rw [List.foldl_cons, if_pos hk]
      obtain ⟨hG2, hmono2, hnew2, hval2⟩ := hf i (List.mem_cons_self i rest) hk memo hG
      obtain ⟨hG3, hmono3, hnew3, hval3⟩ :=
        ih (fun j hj hkj mm hGm => hf j (List.mem_cons_of_mem i hj) hkj mm hGm)
          (f i memo).2 (max acc ((f i memo).1 + 1)) hG2
      refine ⟨hG3, ?_, ?_, ?_⟩
      · intro n d h
        exact hmono3 n d (hmono2 n d h)
      · intro n h1 h2
        cases hmid : lookupMemo (f i memo).2 n with
        | some d2 =>
          refine hnew2 n h1 ?_
          rw [hmid]
          exact fun hc => Option.noConfusion hc
        | none => exact hnew3 n hmid h2
      · rw [hval3, hval2]
    · rw [dfsGo_cons_unknown (fun j => isKnown g j) hk]
      rw [List.foldl_cons, if_neg hk]
      exact ih (fun j hj hkj mm hGm => hf j (List.mem_cons_of_mem i hj) hkj mm hGm)
        memo acc hG

/-! ## Main DFS correctness on ranked graphs -/

theorem dfs_rank_main {g : Graph} {r : String → Nat} (hrk : Ranked g r) :
    ∀ (k : Nat) (name : String), r name < k →
      ∀ (fuel : Nat) (path : List String) (memo : List (String × Nat)),
        GoodMemo g r memo →
        (∀ p ∈ path, r name < r p) →
        path.Nodup →
        (∀ p ∈ path, isKnown g p = true) →
        g.length + 1 ≤ fuel + path.length →
        GoodMemo g r (dfs g fuel name path memo).2 ∧
        (∀ n, lookupMemo memo n = none →
          lookupMemo (dfs g fuel name path memo).2 n ≠ none → r n ≤ r name) ∧
        (dfs g fuel name path memo).1 =
          (if isKnown g name = true then depthStar g r name else 0) ∧
        (isKnown g name = true →
          lookupMemo (dfs g fuel name path memo).2 name = some (depthStar g r name)) := by
  intro k
  induction k with
  | zero => intro name hn; exact absurd hn (Nat.not_lt_zero _)
  | succ k ih =>
    intro name hn fuel path memo hG hpath hnd hkp hfuel
    cases fuel with
    | zero =>
      exact absurd hfuel (by have := path_length_le g hnd hkp; omega)
    | succ f =>
      cases hm : lookupMemo memo name with
      | some d =>
        rw [dfs_succ_memo hm]
        obtain ⟨hkn, hdv⟩ := hG name d hm
        refine ⟨hG, ?_, ?_, ?_⟩
        · intro n h1 h2; exact (h2 h1).elim
        · show d = if isKnown g name = true then depthStar g r name else 0
          rw [if_pos hkn]; exact hdv
        · intro _
          show lookupMemo memo name = some (depthStar g r name)
          rw [hm, hdv]
      | none =>
        cases hf : findModule g name with
        | none =>
          rw [dfs_succ_unknown hm hf]
          have hku : isKnown g name = false := by rw [isKnown, hf]; rfl
          have hku2 : ¬ isKnown g name = true := by rw [hku]; exact Bool.false_ne_true
          refine ⟨hG, ?_, ?_, ?_⟩
          · intro n h1 h2; exact (h2 h1).elim
          · show (0 : Nat) = if isKnown g name = true then depthStar g r name else 0
            rw [if_neg hku2]
          · intro h; exact absurd h hku2
        | some m =>
          have hkn : isKnown g name = true := by rw [isKnown, hf]; rfl
          have hp : name ∉ path := fun hin => absurd (hpath name hin) (lt_irrefl _)
          rw [dfs_succ_compute hm hf hp]
          obtain ⟨hmg, hmn⟩ := findModule_eq_some hf
          have hchild : ∀ i ∈ m.imports, isKnown g i = true →
              ∀ mm, GoodMemo g r mm →
                GoodMemo g r (dfs g f i (name :: path) mm).2 ∧
                (∀ n d, lookupMemo mm n = some d →
                  lookupMemo (dfs g f i (name :: path) mm).2 n = some d) ∧
                (∀ n, lookupMemo mm n = none →
                  lookupMemo (dfs g f i (name :: path) mm).2 n ≠ none → r n < r name) ∧
                (dfs g f i (name :: path) mm).1 = depthStar g r i := by
            intro i hi hki mm hGm
            have hri : r i < r name := hmn ▸ hrk m hmg i hi hki
            have hcond : ∀ p ∈ name :: path, r i < r p := by
              intro p hp2
              rcases List.mem_cons.mp hp2 with rfl | hp3
              · exact hri
              · exact lt_trans hri (hpath p hp3)
            obtain ⟨hA, hB, hC, hD⟩ := ih i (by omega) f (name :: path) mm hGm hcond
              (List.nodup_cons.mpr ⟨hp, hnd⟩)
              (by
                intro p hp2
                rcases List.mem_cons.mp hp2 with rfl | hp3
                · exact hkn
                · exact hkp p hp3)
              (by
                have hlen : (name :: path).length = path.length + 1 := rfl
                omega)
            refine ⟨hA, ?_, ?_, ?_⟩
            · intro n d h
              exact dfs_lookup_mono g f i (name :: path) mm h
            · intro n h1 h2
              exact lt_of_le_of_lt (hB n h1 h2) hri
            · rw [hC, if_pos hki]
          obtain ⟨hGE, hmonoE, hnewE, hvalE⟩ := dfsGo_rank m.imports hchild memo 0 hG
          set E := dfsGo (fun i mm => dfs g f i (name :: path) mm)
            (fun i => isKnown g i) m.imports memo 0 with hE
          have hval : E.1 = depthStar g r name := by
            rw [hvalE, depthStar, specD_succ hf,
              foldl_filter (fun i => isKnown g i)
                (fun acc i => max acc (specD g (r name) i + 1)) m.imports 0]
            refine (foldl_congr_mem m.imports ?_ 0).symm
            intro a i hi
            by_cases hki : isKnown g i = true
            · rw [if_pos hki, if_pos hki]
              have hri : r i < r name := hmn ▸ hrk m hmg i hi hki
              rw [specD_stable hrk i (r name) (by omega)]
            · rw [if_neg hki, if_neg hki]
          have hEnone : lookupMemo E.2 name = none := by
            cases hq : lookupMemo E.2 name with
            | none => rfl
            | some d2 =>
              have hlt := hnewE name hm (by rw [hq]; exact fun hc => Option.noConfusion hc)
              exact absurd hlt (lt_irrefl _)
          refine ⟨?_, ?_, ?_, ?_⟩
          · intro n d h
            cases hq : lookupMemo E.2 n with
            | some d2 =>
              have heq :=
                (@lookupMemo_append_some E.2 [(name, E.1)] n d2 hq).symm.trans h
              have hd : d2 = d := Option.some.inj heq
              exact hd ▸ hGE n d2 hq
            | none =>
              rw [lookupMemo_append_none hq] at h
              by_cases hnn : n = name
              · subst hnn
                rw [lookupMemo_singleton] at h
                have hd : E.1 = d := Option.some.inj h
                refine ⟨hkn, ?_⟩
                rw [← hd, hval]
              · rw [lookupMemo_singleton_ne hnn] at h
                exact Option.noConfusion h
          · intro n h1 h2
            cases hq : lookupMemo E.2 n with
            | some d2 =>
              refine le_of_lt (hnewE n h1 ?_)
              rw [hq]
              exact fun hc => Option.noConfusion hc
            | none =>
              rw [lookupMemo_append_none hq] at h2
              by_cases hnn : n = name
              · subst hnn; exact le_refl _
              · rw [lookupMemo_singleton_ne hnn] at h2
                exact absurd rfl h2
          · show E.1 = if isKnown g name = true then depthStar g r name else 0
            rw [if_pos hkn]; exact hval
          · intro _
            show lookupMemo (E.2 ++ [(name, E.1)]) name = some (depthStar g r name)
            rw [lookupMemo_append_none hEnone, lookupMemo_singleton, hval]

/-! ## Chains-level consequences -/

theorem chains_good {g : Graph} {r : String → Nat} (hrk : Ranked g r) :
    GoodMemo g r (calculate_dependency_chains g) := by
  rw [calculate_dependency_chains, chainsFuel]
  refine foldl_preserve _ (GoodMemo g r) ?_ g []
    (fun n d h => Option.noConfusion h)
  intro memo m hG
  cases hm : lookupMemo memo m.name with
  | some d => exact hG
  | none =>
    show GoodMemo g r (dfs g (g.length + 1) m.name [] memo).2
    have hmain := dfs_rank_main hrk (r m.name + 1) m.name (by omega)
      (g.length + 1) [] memo hG
      (by intro p hp; cases hp) List.nodup_nil (by intro p hp; cases hp)
      (by simp)
    exact hmain.1

theorem chains_value {g : Graph} {r : String → Nat} (hrk : Ranked g r)
    {m : AgdaModule} (hm : m ∈ g) :
    lookupMemo (calculate_dependency_chains g) m.name =
      some (depthStar g r m.name) := by
  have h1 := chainsFuel_isSome g g.length m hm
  obtain ⟨d, hd⟩ := Option.isSome_iff_exists.mp h1
  have h2 := (chains_good hrk) m.name d hd
  rw [calculate_dependency_chains]
  rw [hd, h2.2]

theorem depthStar_fixed {g : Graph} {r : String → Nat} (hrk : Ranked g r)
    {m : AgdaModule} {n : String} (hf : findModule g n = some m) :
    depthStar g r n =
      (m.imports.filter (fun i => isKnown g i)).foldl
        (fun acc i => max acc (depthStar g r i + 1)) 0 := by
  rw [depthStar, specD_succ hf]
  refine foldl_congr_mem _ ?_ 0
  intro a i hi
  have hik : isKnown g i = true := by
    have := List.mem_filter.mp hi
    simpa using this.2
  have him : i ∈ m.imports := (List.mem_filter.mp hi).1
  have hri : r i < r n :=
    (findModule_eq_some hf).2 ▸ hrk m (findModule_eq_some hf).1 i him hik
  rw [specD_stable hrk i (r n) (by omega)]

theorem chains_keys_nodup (g : Graph) :
    ((calculate_dependency_chains g).map Prod.fst).Nodup := by
  rw [calculate_dependency_chains, chainsFuel]
  refine foldl_preserve _
    (fun memo : List (String × Nat) => (memo.map Prod.fst).Nodup) ?_ g [] ?_
  · intro memo m h
    cases hm : lookupMemo memo m.name with
    | some d => exact h
    | none =>
      show ((dfs g (g.length + 1) m.name [] memo).2.map Prod.fst).Nodup
      exact dfs_keys_nodup g (g.length + 1) m.name [] memo h
  · simp

theorem chains_keys_known (g : Graph) :
    ∀ p ∈ calculate_dependency_chains g, isKnown g p.1 = true := by
  rw [calculate_dependency_chains, chainsFuel]
  refine foldl_preserve _
    (fun memo : List (String × Nat) => ∀ p ∈ memo, isKnown g p.1 = true) ?_ g [] ?_
  · intro memo m h
    cases hm : lookupMemo memo m.name with
    | some d => exact h
    | none =>
      show ∀ p ∈ (dfs g (g.length + 1) m.name [] memo).2, isKnown g p.1 = true
      exact dfs_keys_known g (g.length + 1) m.name [] memo h
  · intro p hp
    cases hp

theorem lookupMemo_mem {memo : List (String × Nat)} {n : String} {d : Nat}
    (h : lookupMemo memo n = some d) : (n, d) ∈ memo := by
  induction memo with
  | nil => exact Option.noConfusion h
  | cons p rest ih =>
    obtain ⟨k, dd⟩ := p
    by_cases hk : k = n
    · subst hk
      rw [lookupMemo, if_pos (by simp)] at h
      have : dd = d := Option.some.inj h
      subst this
      exact List.mem_cons_self _ _
    · rw [lookupMemo, if_neg (by simpa using hk)] at h
      exact List.mem_cons_of_mem _ (ih h)

/-! ## The three depth tiers partition the memo -/

theorem three_filter_perm {α : Type _} (p1 p2 p3 : α → Bool)
    (hx : ∀ x, (p1 x = true ∧ p2 x ≠ true ∧ p3 x ≠ true) ∨
               (p1 x ≠ true ∧ p2 x = true ∧ p3 x ≠ true) ∨
               (p1 x ≠ true ∧ p2 x ≠ true ∧ p3 x = true)) :
    ∀ l : List α, List.Perm (l.filter p1 ++ (l.filter p2 ++ l.filter p3)) l := by
  intro l
  induction l with
  | nil => exact List.Perm.refl _
  | cons x xs ih =>
    rw [List.filter_cons, List.filter_cons, List.filter_cons]
    rcases hx x with ⟨h1, h2, h3⟩ | ⟨h1, h2, h3⟩ | ⟨h1, h2, h3⟩
    · rw [if_pos h1, if_neg h2, if_neg h3, List.cons_append]
      exact ih.cons x
    · rw [if_neg h1, if_pos h2, if_neg h3, List.cons_append]
      exact List.perm_middle.trans (ih.cons x)
    · rw [if_neg h1, if_neg h2, if_pos h3]
      have hmid : ((xs.filter p1 ++ xs.filter p2) ++ (x :: xs.filter p3)).Perm
          (x :: ((xs.filter p1 ++ xs.filter p2) ++ xs.filter p3)) :=
        List.perm_middle
      rw [List.append_assoc, List.append_assoc] at hmid
      exact hmid.trans (ih.cons x)

theorem tier_cases (x : String × Nat) :
    ((decide (x.2 ≤ 5)) = true ∧ (!decide (x.2 ≤ 5) && decide (x.2 ≤ 15)) ≠ true ∧
      (!decide (x.2 ≤ 15)) ≠ true) ∨
    ((decide (x.2 ≤ 5)) ≠ true ∧ (!decide (x.2 ≤ 5) && decide (x.2 ≤ 15)) = true ∧
      (!decide (x.2 ≤ 15)) ≠ true) ∨
    ((decide (x.2 ≤ 5)) ≠ true ∧ (!decide (x.2 ≤ 5) && decide (x.2 ≤ 15)) ≠ true ∧
      (!decide (x.2 ≤ 15)) = true) := by
  by_cases h5 : x.2 ≤ 5
  · left
    have h15 : x.2 ≤ 15 := by omega
    simp [h5, h15]
  · by_cases h15 : x.2 ≤ 15
    · right; left; simp [h5, h15]
    · right; right; simp [h5, h15]

theorem tier_filters_perm (l : List (String × Nat)) :
    List.Perm
      (l.filter (fun p => p.2 ≤ 5) ++
        (l.filter (fun p => !(p.2 ≤ 5) && p.2 ≤ 15) ++
          l.filter (fun p => !(p.2 ≤ 15))))
      l :=
  three_filter_perm _ _ _ tier_cases l

/-! ## Stable sort: ties keep input order -/

theorem pySort_tie_stable {le : α → α → Bool} {l : List α} (hnl : l.Nodup)
    {a b : α} (hab : [a, b].Sublist (pySort le l))
    (hlab : le a b = true) (hlba : le b a = true) :
    [a, b].Sublist l := by
  have hnd2 : (pySort le l).Nodup := (pySort_perm le l).symm.nodup hnl
  by_cases hne : a = b
  · subst hne
    have hpw := List.Pairwise.sublist hab hnd2
    exact absurd rfl ((List.pairwise_cons.mp hpw).1 a (List.mem_singleton.mpr rfl))
  · have hal : a ∈ l := (pySort_perm le l).mem_iff.mp
      (List.Sublist.mem (List.mem_cons_self a [b]) hab)
    have hbl : b ∈ l := (pySort_perm le l).mem_iff.mp
      (List.Sublist.mem (List.mem_cons_of_mem a (List.mem_singleton.mpr rfl)) hab)
    rcases pair_sublist_of_mem hal hbl hne with h | h
    · exact h
    · have hba := pySort_stable h hlba
      exact absurd (pair_sublist_antisymm hnd2 hab hba) hne

/-! ## Comparator facts -/

theorem count_le_total (a b : String × Nat) :
    (decide (a.2 ≤ b.2)) = true ∨ (decide (b.2 ≤ a.2)) = true := by
  rcases Nat.le_total a.2 b.2 with h | h
  · exact Or.inl (by simpa using h)
  · exact Or.inr (by simpa using h)

theorem count_le_trans (a b c : String × Nat)
    (h1 : (decide (a.2 ≤ b.2)) = true) (h2 : (decide (b.2 ≤ c.2)) = true) :
    (decide (a.2 ≤ c.2)) = true := by
  simp only [decide_eq_true_eq] at h1 h2 ⊢
  omega

theorem count_ge_total (a b : String × Nat) :
    (decide (b.2 ≤ a.2)) = true ∨ (decide (a.2 ≤ b.2)) = true := by
  rcases count_le_total b a with h | h
  · exact Or.inl h
  · exact Or.inr h

theorem count_ge_trans (a b c : String × Nat)
    (h1 : (decide (b.2 ≤ a.2)) = true) (h2 : (decide (c.2 ≤ b.2)) = true) :
    (decide (c.2 ≤ a.2)) = true := by
  simp only [decide_eq_true_eq] at h1 h2 ⊢
  omega

/-! ## Set-add lemmas -/

theorem mem_addToSet_self (l : List String) (x : String) : x ∈ addToSet l x := by
  rw [addToSet]
  by_cases h : x ∈ l
  · rw [if_pos h]; exact h
  · rw [if_neg h]
    exact List.mem_append_right _ (List.mem_singleton.mpr rfl)

theorem mem_addToSet_of_mem {l : List String} {y : String} (x : String)
    (h : y ∈ l) : y ∈ addToSet l x := by
  rw [addToSet]
  by_cases hx : x ∈ l
  · rw [if_pos hx]; exact h
  · rw [if_neg hx]
    exact List.mem_append_left _ h

theorem mem_of_mem_addToSet {l : List String} {x y : String}
    (h : y ∈ addToSet l x) : y ∈ l ∨ y = x := by
  rw [addToSet] at h
  by_cases hx : x ∈ l
  · rw [if_pos hx] at h
    exact Or.inl h
  · rw [if_neg hx] at h
    rcases List.mem_append.mp h with h2 | h2
    · exact Or.inl h2
    · exact Or.inr (List.mem_singleton.mp h2)

/-! ## Unfolding equations for `parseLineStep` -/

theorem parseLineStep_comment {acc : List String × List String} {line : List Char}
    (hc : isCommentLine line = true) : parseLineStep acc line = acc := by
  rw [parseLineStep, if_pos hc]

theorem parseLineStep_nomatch {acc : List String × List String} {line : List Char}
    (hc : ¬ isCommentLine line = true) (hml : matchImportLine line = none) :
    parseLineStep acc line = acc := by
  rw [parseLineStep, if_neg hc, hml]

theorem parseLineStep_match {acc : List String × List String} {line : List Char}
    {tok : List Char} (hc : ¬ isCommentLine line = true)
    (hml : matchImportLine line = some tok) :
    parseLineStep acc line =
      (addToSet acc.1 (String.mk tok),
        if searchPublic none line = true then addToSet acc.2 (String.mk tok)
        else acc.2) := by
  rw [parseLineStep, if_neg hc, hml]

/-! ## Character computation lemmas -/

theorem isWordDot_not_isWS {c : Char} (h : isWordDot c = true) : isWS c = false := by
  cases hq : isWS c
  · rfl
  · exfalso
    rw [isWS] at hq
    simp only [Bool.or_eq_true, beq_iff_eq] at hq
    rcases hq with (((h1 | h1) | h1) | h1) | h1
    all_goals subst h1
    all_goals exact absurd h (by decide)

theorem isWordDot_ne_newline {c : Char} (h : isWordDot c = true) :
    (c == Char.ofNat 10) = false := by
  cases hq : c == Char.ofNat 10
  · rfl
  · exfalso
    have hcn : c = Char.ofNat 10 := by simpa using hq
    subst hcn
    exact absurd h (by decide)

theorem takeWhile_all {p : Char → Bool} {l : List Char}
    (h : ∀ c ∈ l, p c = true) : l.takeWhile p = l := by
  induction l with
  | nil => rfl
  | cons c rest ih =>
    rw [List.takeWhile_cons, if_pos (h c (List.mem_cons_self c rest))]
    rw [ih (fun c2 hc2 => h c2 (List.mem_cons_of_mem c hc2))]

theorem dropWhile_all {p : Char → Bool} {l : List Char}
    (h : ∀ c ∈ l, p c = true) : l.dropWhile p = [] := by
  induction l with
  | nil => rfl
  | cons c rest ih =>
    rw [List.dropWhile_cons, if_pos (h c (List.mem_cons_self c rest))]
    exact ih (fun c2 hc2 => h c2 (List.mem_cons_of_mem c hc2))

theorem splitLines_no_newline {l : List Char}
    (h : ∀ c ∈ l, (c == Char.ofNat 10) = false) : splitLines l = [l] := by
  induction l with
  | nil => rfl
  | cons c rest ih =>
    rw [splitLines, if_neg (by rw [h c (List.mem_cons_self c rest)]; exact Bool.false_ne_true)]
    rw [ih (fun c2 hc2 => h c2 (List.mem_cons_of_mem c hc2))]

/-! ## Computation of the matcher on a well-formed import line -/

theorem matchImportLine_import_tok {tok : List Char} (hne : tok ≠ [])
    (hw : ∀ c ∈ tok, isWordDot c = true) :
    matchImportLine ('i' :: 'm' :: 'p' :: 'o' :: 'r' :: 't' :: ' ' :: tok) =
      some tok := by
  obtain ⟨c0, rest, rfl⟩ : ∃ c0 rest, tok = c0 :: rest := by
    cases tok with
    | nil => exact absurd rfl hne
    | cons a b => exact ⟨a, b, rfl⟩
  show (if (List.takeWhile isWordDot (List.dropWhile isWS (c0 :: rest))).isEmpty
      then none
      else
        match List.dropWhile isWordDot (List.dropWhile isWS (c0 :: rest)) with
        | [] => some (List.takeWhile isWordDot (List.dropWhile isWS (c0 :: rest)))
        | c2 :: _ =>
          if isWS c2 then
            some (List.takeWhile isWordDot (List.dropWhile isWS (c0 :: rest)))
          else none) = some (c0 :: rest)
  have hc0 : isWS c0 = false :=
    isWordDot_not_isWS (hw c0 (List.mem_cons_self c0 rest))
  have hdw : List.dropWhile isWS (c0 :: rest) = c0 :: rest := by
    rw [List.dropWhile_cons, if_neg (by rw [hc0]; exact Bool.false_ne_true)]
  rw [hdw, takeWhile_all hw, dropWhile_all hw]
  rfl

/-! ## Membership in ranking outputs -/

theorem mem_take_pySort {le : α → α → Bool} {l : List α} {L : Nat} {p : α}
    (hp : p ∈ (pySort le l).take L) : p ∈ l :=
  (pySort_perm le l).mem_iff.mp (List.Sublist.mem hp (List.take_sublist L _))

/-! # Claim theorems -/

/-- C6: after graph construction, for every known module `m` and every name
`i` in `m.imports` such that `i` is itself a key of the modules mapping,
`m.name` is a member of `reverseDeps[i]`. -/
theorem claim_C6 (g : Graph) (m : AgdaModule) (i : String)
    (hm : m ∈ g) (hi : i ∈ m.imports) (_hk : isKnown g i = true) :
    m.name ∈ revLookup (buildReverseDeps g) i :=
  mem_revLookup_buildReverseDeps hm hi

theorem claim_C6_witness :
    isKnown gEdge "B" = true ∧ "A" ∈ revLookup (buildReverseDeps gEdge) "B" :=
  ⟨by decide,
    claim_C6 gEdge ⟨"A", ["B"], []⟩ "B" (by decide) (by decide) (by decide)⟩

/-- C7: for every input text processed by the import extractor, the resulting
`publicImports` set is a subset of the resulting `imports` set. -/
theorem claim_C7 (content : List Char) :
    ∀ x ∈ (parse_imports content).2, x ∈ (parse_imports content).1 := by
  rw [parse_imports]
  have hstep : ∀ (acc : List String × List String) (line : List Char),
      (∀ x ∈ acc.2, x ∈ acc.1) →
      ∀ x ∈ (parseLineStep acc line).2, x ∈ (parseLineStep acc line).1 := by
    intro acc line h
    by_cases hc : isCommentLine line = true
    · rw [parseLineStep_comment hc]; exact h
    · cases hml : matchImportLine line with
      | none => rw [parseLineStep_nomatch hc hml]; exact h
      | some tok =>
        rw [parseLineStep_match hc hml]
        by_cases hp : searchPublic none line = true
        · rw [if_pos hp]
          intro x hx
          rcases mem_of_mem_addToSet hx with h2 | h2
          · exact mem_addToSet_of_mem _ (h x h2)
          · rw [h2]
            exact mem_addToSet_self _ _
        · rw [if_neg hp]
          intro x hx
          exact mem_addToSet_of_mem _ (h x hx)
  exact foldl_preserve parseLineStep
    (fun acc : List String × List String => ∀ x ∈ acc.2, x ∈ acc.1)
    hstep (splitLines content) ([], []) (by intro x hx; cases hx)

theorem claim_C7_witness :
    "A" ∈ (parse_imports (String.toList "open import A public")).2 ∧
    "A" ∈ (parse_imports (String.toList "open import A public")).1 :=
  ⟨by decide, claim_C7 (String.toList "open import A public") "A" (by decide)⟩

/-- C2 counterexample: an import of an unknown name `X` does create an entry
of the reverse-dependency index keyed by `X` (the source filters nothing when
building `reverse_deps`), refuting the claim that `reverseDeps` acquires no
entry keyed by an unresolvable import. -/
theorem claim_C2_cex :
    isKnown gDangling "X" = false ∧
    revLookup (buildReverseDeps gDangling) "X" = ["M"] := by decide

/-- C2 amended: an unresolvable import `i` of module `m` is retained in
`m.imports` and contributes nothing to the internal import count, but the
reverse-dependency index does acquire an entry keyed by `i` containing
`m.name` (that entry is simply never consulted for rankings, which iterate
over known modules only). -/
theorem claim_C2_amended (g : Graph) (m : AgdaModule) (i : String)
    (hm : m ∈ g) (hi : i ∈ m.imports) (hk : isKnown g i = false) :
    i ∈ m.imports ∧
    m.name ∈ revLookup (buildReverseDeps g) i ∧
    i ∉ m.imports.filter (fun j => isKnown g j) := by
  refine ⟨hi, mem_revLookup_buildReverseDeps hm hi, ?_⟩
  intro hmem
  have h2 := (List.mem_filter.mp hmem).2
  rw [hk] at h2
  exact Bool.false_ne_true h2

theorem claim_C2_witness :
    isKnown gDangling "X" = false ∧
    "M" ∈ revLookup (buildReverseDeps gDangling) "X" :=
  ⟨by decide,
    (claim_C2_amended gDangling ⟨"M", ["X"], []⟩ "X"
      (by decide) (by decide) (by decide)).2.1⟩

/-- C3 counterexample: the line `import ..A` adds the token `..A` to the
imports set even though `..A` violates the claimed dot constraints (leading
dot, consecutive dots): the source regex class `[\w.]+` places no constraint
on dot positions. -/
theorem claim_C3_cex :
    String.mk ['.', '.', 'A'] ∈
      (parse_imports (String.toList "import ..A")).1 ∧
    specWellDotted ['.', '.', 'A'] = false := by decide

/-- C3 amended: the import extractor accepts as the captured token any
nonempty sequence of identifier characters and dots, with no constraint on
dot placement (leading, trailing and consecutive dots included): for every
such token `tok`, the line `import tok` contributes exactly `tok` to the
imports set. -/
theorem claim_C3_amended (tok : List Char) (hne : tok ≠ [])
    (hw : ∀ c ∈ tok, isWordDot c = true) :
    (parse_imports ('i' :: 'm' :: 'p' :: 'o' :: 'r' :: 't' :: ' ' :: tok)).1 =
      [String.mk tok] := by
  rw [parse_imports]
  have hnl : splitLines ('i' :: 'm' :: 'p' :: 'o' :: 'r' :: 't' :: ' ' :: tok) =
      ['i' :: 'm' :: 'p' :: 'o' :: 'r' :: 't' :: ' ' :: tok] := by
    refine splitLines_no_newline ?_
    intro c hc
    rcases List.mem_cons.mp hc with rfl | hc
    · decide
    rcases List.mem_cons.mp hc with rfl | hc
    · decide
    rcases List.mem_cons.mp hc with rfl | hc
    · decide
    rcases List.mem_cons.mp hc with rfl | hc
    · decide
    rcases List.mem_cons.mp hc with rfl | hc
    · decide
    rcases List.mem_cons.mp hc with rfl | hc
    · decide
    rcases List.mem_cons.mp hc with rfl | hc
    · decide
    · exact isWordDot_ne_newline (hw c hc)
  rw [hnl, List.foldl_cons, List.foldl_nil]
  have hcm0 : isCommentLine ('i' :: 'm' :: 'p' :: 'o' :: 'r' :: 't' :: ' ' :: tok) = false :=
    rfl
  have hcm : ¬ isCommentLine ('i' :: 'm' :: 'p' :: 'o' :: 'r' :: 't' :: ' ' :: tok) = true := by
    intro h
    rw [hcm0] at h
    exact Bool.false_ne_true h
  rw [parseLineStep_match hcm (matchImportLine_import_tok hne hw)]
  show addToSet [] (String.mk tok) = [String.mk tok]
  rw [addToSet, if_neg (List.not_mem_nil _)]
  rfl

theorem claim_C3_witness :
    (parse_imports ('i' :: 'm' :: 'p' :: 'o' :: 'r' :: 't' :: ' ' ::
      '.' :: '.' :: 'A' :: [])).1 = [String.mk ['.', '.', 'A']] :=
  claim_C3_amended ['.', '.', 'A'] (by decide) (by decide)

/-- C10: every name in the output of the hub ranking and of the foundational
ranking is a key of the modules mapping, even though the reverse-dependency
index may hold entries keyed by unknown names. -/
theorem claim_C10 (g : Graph) (L : Nat) :
    (∀ p ∈ find_hub_modules g L, isKnown g p.1 = true) ∧
    (∀ p ∈ find_foundational_modules g L, isKnown g p.1 = true) := by
  constructor
  · intro p hp
    have h1 := mem_take_pySort hp
    obtain ⟨m, hm, he⟩ := List.mem_map.mp h1
    rw [← he]
    exact isKnown_of_mem hm
  · intro p hp
    have h1 := mem_take_pySort hp
    obtain ⟨m, hm, he⟩ := List.mem_map.mp h1
    rw [← he]
    exact isKnown_of_mem hm

theorem claim_C10_witness :
    ("M", 0) ∈ find_hub_modules gDangling 5 ∧
    isKnown gDangling "M" = true ∧
    revLookup (buildReverseDeps gDangling) "X" ≠ [] :=
  ⟨by decide, (claim_C10 gDangling 5).1 ("M", 0) (by decide), by decide⟩

/-- C1 counterexample: on the two-module cycle `A imports B, B imports A`
(driven in the order A, B) the source assigns depth(A) = 2 and depth(B) = 1,
not depth 0 for both: the cyclic back-reference contributes 0 but the `+ 1`
increments along the cycle still apply. -/
theorem claim_C1_cex :
    lookupMemo (calculate_dependency_chains gTwoCycle) "A" = some 2 ∧
    lookupMemo (calculate_dependency_chains gTwoCycle) "B" = some 1 ∧
    ¬(lookupMemo (calculate_dependency_chains gTwoCycle) "A" = some 0 ∧
      lookupMemo (calculate_dependency_chains gTwoCycle) "B" = some 0) := by
  decide

/-- C1 amended: on the two-module cycle `A imports B, B imports A` (modules
driven in discovery order A, B) the depth computation terminates, finalizes
both modules, and assigns depth(A) = 2 and depth(B) = 1: the in-progress
cycle guard makes the back-edge `B → A` contribute 0, after which each `+ 1`
increment still applies. -/
theorem claim_C1_thm :
    lookupMemo (calculate_dependency_chains gTwoCycle) "A" = some 2 ∧
    lookupMemo (calculate_dependency_chains gTwoCycle) "B" = some 1 ∧
    (∀ extra, chainsFuel gTwoCycle (3 + extra) =
      calculate_dependency_chains gTwoCycle) := by
  refine ⟨by decide, by decide, ?_⟩
  intro extra
  refine chainsFuel_stable gTwoCycle (3 + extra) 3 ?_ ?_
  · show 2 + 1 ≤ 3 + extra
    omega
  · show 2 + 1 ≤ 3
    omega

theorem claim_C1_witness :
    chainsFuel gTwoCycle (3 + 5) = calculate_dependency_chains gTwoCycle :=
  claim_C1_thm.2.2 5

/-- C8: the depth computation terminates on every finite dependency graph,
cycles included — adding any amount of fuel beyond the driver's `|g| + 1`
changes nothing — and finalizes a depth value for every known module. -/
theorem claim_C8 (g : Graph) :
    (∀ m ∈ g, ∃ d, lookupMemo (calculate_dependency_chains g) m.name = some d) ∧
    (∀ extra, chainsFuel g (g.length + 1 + extra) =
      calculate_dependency_chains g) := by
  constructor
  · intro m hm
    exact Option.isSome_iff_exists.mp (chainsFuel_isSome g g.length m hm)
  · intro extra
    exact chainsFuel_stable g (g.length + 1 + extra) (g.length + 1)
      (by omega) (by omega)

theorem claim_C8_witness :
    (∃ d, lookupMemo (calculate_dependency_chains gTwoCycle) "A" = some d) ∧
    chainsFuel gTwoCycle (gTwoCycle.length + 1 + 5) =
      calculate_dependency_chains gTwoCycle :=
  ⟨(claim_C8 gTwoCycle).1 ⟨"A", ["B"], []⟩ (by decide),
    (claim_C8 gTwoCycle).2 5⟩

/-- C9: `foundational(L)` returns exactly `min(L, n)` entries of the form
`(name, internal import count)` — counting only imports that resolve to
known modules — sorted in ascending order of internal import count, with
ties between equal counts broken by module discovery order. -/
theorem claim_C9 (g : Graph) (L : Nat)
    (hnd : (g.map (fun x => x.name)).Nodup) :
    (find_foundational_modules g L).length = min L g.length ∧
    (∀ p ∈ find_foundational_modules g L,
      ∃ m ∈ g, p = (m.name, internalImportCount g m)) ∧
    (find_foundational_modules g L).Pairwise (fun a b => a.2 ≤ b.2) ∧
    (∀ a b, [a, b].Sublist (find_foundational_modules g L) → a.2 = b.2 →
      [a, b].Sublist (g.map (fun m => (m.name, internalImportCount g m)))) := by
  have hdnd : (g.map (fun m => (m.name, internalImportCount g m))).Nodup := by
    refine List.Nodup.of_map Prod.fst ?_
    rw [List.map_map]
    exact hnd
  refine ⟨?_, ?_, ?_, ?_⟩
  · show ((pySort (fun a b => a.2 ≤ b.2)
      (g.map (fun m => (m.name, internalImportCount g m)))).take L).length = _
    rw [List.length_take,
      (pySort_perm _ (g.map (fun m => (m.name, internalImportCount g m)))).length_eq,
      List.length_map]
  · intro p hp
    have h1 := mem_take_pySort hp
    obtain ⟨m, hm, he⟩ := List.mem_map.mp h1
    exact ⟨m, hm, he.symm⟩
  · have hs := pySort_sorted count_le_total count_le_trans
      (g.map (fun m => (m.name, internalImportCount g m)))
    exact List.Pairwise.sublist (List.take_sublist L _)
      (hs.imp (fun h => of_decide_eq_true h))
  · intro a b hab heq
    have hab2 : [a, b].Sublist (pySort (fun x y => x.2 ≤ y.2)
        (g.map (fun m => (m.name, internalImportCount g m)))) :=
      hab.trans (List.take_sublist L _)
    refine pySort_tie_stable hdnd hab2 ?_ ?_
    · show decide (a.2 ≤ b.2) = true
      rw [heq]
      simp
    · show decide (b.2 ≤ a.2) = true
      rw [heq]
      simp

theorem claim_C9_witness :
    (find_foundational_modules gMix 3).length = min 3 gMix.length ∧
    (find_foundational_modules gMix 3).Pairwise (fun a b => a.2 ≤ b.2) :=
  ⟨(claim_C9 gMix 3 (by decide)).1, (claim_C9 gMix 3 (by decide)).2.2.1⟩

/-- C4 counterexample: with two importless modules discovered in the order
B, A, both depths are 0.  Under the claimed tie-break — equal depths ordered
by module name — the shallow tier would have to be `[("A",0), ("B",0)]`;
the code instead keeps memo finalization order and returns
`[("B",0), ("A",0)]`. -/
theorem claim_C4_cex :
    (analyze_dependency_patterns gTieBreak).shallow = [("B", 0), ("A", 0)] ∧
    (analyze_dependency_patterns gTieBreak).shallow ≠ [("A", 0), ("B", 0)] := by
  decide

/-- C4 amended: the three tiers partition exactly the finalized depth
entries (`chain_lengths`) — every entry names a known module and every known
module is finalized; shallow holds depths 0–5, medium 6–15, deep 16 and
above; shallow and medium are sorted ascending by depth, deep descending;
ties between equal depths keep memo finalization order (they are not
re-sorted by module name). -/
theorem claim_C4_amended (g : Graph) :
    ((analyze_dependency_patterns g).shallow ++
      ((analyze_dependency_patterns g).medium ++
        (analyze_dependency_patterns g).deep)).Perm
      (calculate_dependency_chains g) ∧
    (∀ m ∈ g, ∃ d, lookupMemo (calculate_dependency_chains g) m.name = some d) ∧
    (∀ p ∈ calculate_dependency_chains g, isKnown g p.1 = true) ∧
    ((analyze_dependency_patterns g).shallow.Pairwise (fun a b => a.2 ≤ b.2) ∧
      ∀ p ∈ (analyze_dependency_patterns g).shallow, p.2 ≤ 5) ∧
    ((analyze_dependency_patterns g).medium.Pairwise (fun a b => a.2 ≤ b.2) ∧
      ∀ p ∈ (analyze_dependency_patterns g).medium, 6 ≤ p.2 ∧ p.2 ≤ 15) ∧
    ((analyze_dependency_patterns g).deep.Pairwise (fun a b => b.2 ≤ a.2) ∧
      ∀ p ∈ (analyze_dependency_patterns g).deep, 16 ≤ p.2) ∧
    (∀ a b : String × Nat, a.2 = b.2 →
      ([a, b].Sublist (analyze_dependency_patterns g).shallow →
        [a, b].Sublist (calculate_dependency_chains g)) ∧
      ([a, b].Sublist (analyze_dependency_patterns g).medium →
        [a, b].Sublist (calculate_dependency_chains g)) ∧
      ([a, b].Sublist (analyze_dependency_patterns g).deep →
        [a, b].Sublist (calculate_dependency_chains g))) := by
  have hclnd : (calculate_dependency_chains g).Nodup :=
    List.Nodup.of_map Prod.fst (chains_keys_nodup g)
  refine ⟨?_, ?_, chains_keys_known g, ⟨?_, ?_⟩, ⟨?_, ?_⟩, ⟨?_, ?_⟩, ?_⟩
  · show ((pySort (fun a b => a.2 ≤ b.2)
        ((calculate_dependency_chains g).filter (fun p => p.2 ≤ 5))) ++
      ((pySort (fun a b => a.2 ≤ b.2)
        ((calculate_dependency_chains g).filter
          (fun p => !(p.2 ≤ 5) && p.2 ≤ 15))) ++
        (pySort (fun a b => b.2 ≤ a.2)
          ((calculate_dependency_chains g).filter (fun p => !(p.2 ≤ 15)))))).Perm
      (calculate_dependency_chains g)
    refine List.Perm.trans
      (List.Perm.append (pySort_perm _ _)
        (List.Perm.append (pySort_perm _ _) (pySort_perm _ _))) ?_
    exact tier_filters_perm (calculate_dependency_chains g)
  · intro m hm
    exact Option.isSome_iff_exists.mp (chainsFuel_isSome g g.length m hm)
  · exact List.Pairwise.imp (fun h => of_decide_eq_true h)
      (pySort_sorted count_le_total count_le_trans _)
  · intro p hp
    have h1 : p ∈ (calculate_dependency_chains g).filter (fun q => q.2 ≤ 5) :=
      (pySort_perm _ _).mem_iff.mp hp
    exact of_decide_eq_true (List.mem_filter.mp h1).2
  · exact List.Pairwise.imp (fun h => of_decide_eq_true h)
      (pySort_sorted count_le_total count_le_trans _)
  · intro p hp
    have h1 : p ∈ (calculate_dependency_chains g).filter
        (fun q => !(q.2 ≤ 5) && q.2 ≤ 15) :=
      (pySort_perm _ _).mem_iff.mp hp
    have h2 := (List.mem_filter.mp h1).2
    simp only [Bool.and_eq_true, Bool.not_eq_true', decide_eq_false_iff_not,
      decide_eq_true_eq] at h2
    omega
  · exact List.Pairwise.imp (fun h => of_decide_eq_true h)
      (pySort_sorted count_ge_total count_ge_trans _)
  · intro p hp
    have h1 : p ∈ (calculate_dependency_chains g).filter (fun q => !(q.2 ≤ 15)) :=
      (pySort_perm _ _).mem_iff.mp hp
    have h2 := (List.mem_filter.mp h1).2
    simp only [Bool.not_eq_true', decide_eq_false_iff_not] at h2
    omega
  · intro a b heq
    refine ⟨?_, ?_, ?_⟩
    · intro hab
      refine List.Sublist.trans
        (pySort_tie_stable (List.Nodup.filter _ hclnd) hab ?_ ?_)
        (List.filter_sublist _)
      · show decide (a.2 ≤ b.2) = true
        rw [heq]; simp
      · show decide (b.2 ≤ a.2) = true
        rw [heq]; simp
    · intro hab
      refine List.Sublist.trans
        (pySort_tie_stable (List.Nodup.filter _ hclnd) hab ?_ ?_)
        (List.filter_sublist _)
      · show decide (a.2 ≤ b.2) = true
        rw [heq]; simp
      · show decide (b.2 ≤ a.2) = true
        rw [heq]; simp
    · intro hab
      refine List.Sublist.trans
        (pySort_tie_stable (List.Nodup.filter _ hclnd) hab ?_ ?_)
        (List.filter_sublist _)
      · show decide (b.2 ≤ a.2) = true
        rw [heq]; simp
      · show decide (a.2 ≤ b.2) = true
        rw [heq]; simp

theorem claim_C4_witness :
    ((analyze_dependency_patterns gTwoCycle).shallow ++
      ((analyze_dependency_patterns gTwoCycle).medium ++
        (analyze_dependency_patterns gTwoCycle).deep)).Perm
      (calculate_dependency_chains gTwoCycle) :=
  (claim_C4_amended gTwoCycle).1

/-- C5: on an acyclic dependency graph (acyclicity witnessed by a rank
function strictly decreasing along resolvable imports, with unique module
names), the computed depth of every module `m` is 0 when `m` has no
resolvable import and otherwise 1 plus the maximum of the computed depths of
`m`'s resolvable imports; in particular the chain A→B→C→D gets depths
3, 2, 1, 0 and a module importing modules of depths {0, 2, 5} gets depth 6. -/
theorem claim_C5 (g : Graph) (r : String → Nat) (hrk : Ranked g r)
    (hnd : (g.map (fun x => x.name)).Nodup) :
    (∀ m ∈ g,
      (∀ i ∈ m.imports, isKnown g i = true →
        (lookupMemo (calculate_dependency_chains g) i).isSome = true) ∧
      (m.imports.filter (fun i => isKnown g i) = [] →
        lookupMemo (calculate_dependency_chains g) m.name = some 0) ∧
      (m.imports.filter (fun i => isKnown g i) ≠ [] →
        lookupMemo (calculate_dependency_chains g) m.name =
          some (((m.imports.filter (fun i => isKnown g i)).map
              (fun i => (lookupMemo (calculate_dependency_chains g) i).getD 0)).foldl
            max 0 + 1))) ∧
    calculate_dependency_chains gChain =
      [("D", 0), ("C", 1), ("B", 2), ("A", 3)] ∧
    lookupMemo (calculate_dependency_chains gMix) "M" = some 6 := by
  refine ⟨?_, by decide, by decide⟩
  intro m hm
  have hfm : findModule g m.name = some m := findModule_of_mem_nodup hnd hm
  have hv := chains_value hrk hm
  have hvi : ∀ i, isKnown g i = true →
      lookupMemo (calculate_dependency_chains g) i = some (depthStar g r i) := by
    intro i hki
    obtain ⟨m2, hm2, he⟩ := exists_of_isKnown hki
    have h2 := chains_value hrk hm2
    rw [he] at h2
    exact h2
  refine ⟨?_, ?_, ?_⟩
  · intro i hi hki
    rw [hvi i hki]
    rfl
  · intro hemp
    rw [hv, depthStar_fixed hrk hfm, hemp]
    rfl
  · intro hne
    rw [hv, depthStar_fixed hrk hfm]
    rw [foldl_max_plus1 (fun i => depthStar g r i) _ hne]
    have h2 : ((m.imports.filter (fun i => isKnown g i)).map
        (fun i => (lookupMemo (calculate_dependency_chains g) i).getD 0)) =
        ((m.imports.filter (fun i => isKnown g i)).map
          (fun i => depthStar g r i)) := by
      refine List.map_congr_left ?_
      intro i hi
      have hki : isKnown g i = true := by
        have h3 := (List.mem_filter.mp hi).2
        simpa using h3
      rw [hvi i hki]
      rfl
    rw [h2, List.foldl_map]

theorem claim_C5_witness :
    calculate_dependency_chains gChain =
      [("D", 0), ("C", 1), ("B", 2), ("A", 3)] :=
  (claim_C5 gChain rChain (by unfold Ranked; decide) (by decide)).2.1

end DepAnalysis
